import Mathlib

/-!
Verification of the HTML cleaning engine of piotrproszowski/html_cleaner.

The engine lives in `src/processors/html_processor.py` (`process_html_file`)
with a near-identical variant in `src/html_modifier.py`.  Per document the
engine parses the text into a tree of elements, text nodes and comment nodes
(BeautifulSoup with the `html.parser` builder), then applies four ordered
passes — comment removal, tag unwrapping, tag deletion with content, and
attribute cleaning — and serializes the tree back to text.

We embed the document tree and the four passes shallowly.  BeautifulSoup
primitives are rendered by their documented tree semantics:
`find_all(t)` enumerates every element of tag name `t` at any depth in
document order, `unwrap()` replaces an element by its children in its
parent's child list, `decompose()` detaches an element together with its
whole subtree, `extract()` on a comment detaches that comment, and
`element.attrs = {}` empties the element's attribute mapping.  Since
`find_all` materializes its result before the mutation loop runs, the net
effect of each `find_all`/mutate loop is the corresponding recursive
bottom-up rewrite of the tree, which is what the definitions below compute.
-/

namespace HtmlCleaner

/-- A node of the parsed document tree: an element with a tag name, an
ordered attribute mapping and an ordered child list; a text node; or a
comment node. -/
inductive Node where
  | element (tag : String) (attrs : List (String × String)) (children : List Node)
  | text (content : String)
  | comment (content : String)

/-- A parsed document is an ordered forest of nodes (the children of the
BeautifulSoup root). -/
abbrev Doc := List Node

/-- Comment-removal loop of `process_html_file`
(`for comment in soup.find_all(text=lambda text: isinstance(text, Comment)): comment.extract()`):
every comment node at any depth is detached from its parent's child list. -/
def removeComments : Doc → Doc
  | [] => []
  | .element tag attrs children :: rest =>
      .element tag attrs (removeComments children) :: removeComments rest
  | .text s :: rest => .text s :: removeComments rest
  | .comment _ :: rest => removeComments rest

/-- One tag's unwrap loop
(`for element in soup.find_all(tag): element.unwrap()`): every element whose
tag name is `t`, at any depth, is replaced in its parent's child list by its
own children, order preserved; children of an unwrapped element were also in
the `find_all` result, so matching elements nested inside matching elements
are unwrapped as well. -/
def unwrapAll (t : String) : Doc → Doc
  | [] => []
  | .element tag attrs children :: rest =>
      if tag = t then unwrapAll t children ++ unwrapAll t rest
      else .element tag attrs (unwrapAll t children) :: unwrapAll t rest
  | n :: rest => n :: unwrapAll t rest

/-- One tag's delete loop
(`for element in soup.find_all(tag): element.decompose()`): every element
whose tag name is `t`, at any depth, is removed together with its entire
subtree; nothing is spliced in. -/
def deleteAll (t : String) : Doc → Doc
  | [] => []
  | .element tag attrs children :: rest =>
      if tag = t then deleteAll t rest
      else .element tag attrs (deleteAll t children) :: deleteAll t rest
  | n :: rest => n :: deleteAll t rest

/-- Attribute clearing of the `clean_attrs_mode == 'all'` branch
(`for element in soup.find_all(True): element.attrs = {}`). -/
def clearAttrsAll : Doc → Doc
  | [] => []
  | .element tag _ children :: rest =>
      .element tag [] (clearAttrsAll children) :: clearAttrsAll rest
  | n :: rest => n :: clearAttrsAll rest

/-- Attribute clearing for one listed tag in the `'selected'` branch
(`for element in soup.find_all(tag): element.attrs = {}`). -/
def clearAttrsTag (t : String) : Doc → Doc
  | [] => []
  | .element tag attrs children :: rest =>
      .element tag (if tag = t then [] else attrs) (clearAttrsTag t children)
        :: clearAttrsTag t rest
  | n :: rest => n :: clearAttrsTag t rest

/-- Attribute clearing of the `'all_except'` branch
(`for element in soup.find_all(True): if element.name not in (attrs_exceptions or []): element.attrs = {}`). -/
def clearAttrsExcept (exceptions : List String) : Doc → Doc
  | [] => []
  | .element tag attrs children :: rest =>
      .element tag (if tag ∈ exceptions then attrs else []) (clearAttrsExcept exceptions children)
        :: clearAttrsExcept exceptions rest
  | n :: rest => n :: clearAttrsExcept exceptions rest

/-- The attribute-cleaning pass of `process_html_file`: dispatch on
`clean_attrs_mode` (`'all'`, `'selected'`, `'all_except'`; anything else
falls through all three `elif` branches and does nothing).  `attrs_exceptions`
defaults to `None`; the code reads it as `attrs_exceptions or []`, and the
`'selected'` loop skips empty tag names (`if tag:`). -/
def attrsPass (mode : String) (exceptions : Option (List String)) (doc : Doc) : Doc :=
  if mode = "all" then clearAttrsAll doc
  else if mode = "selected" then
    (exceptions.getD []).foldl (fun d t => if t ≠ "" then clearAttrsTag t d else d) doc
  else if mode = "all_except" then clearAttrsExcept (exceptions.getD []) doc
  else doc

/-- Rule arguments of `processors/html_processor.process_html_file`. -/
structure Rules where
  tags_to_remove : List String
  tags_to_remove_with_content : List String
  clean_attrs_mode : String
  attrs_exceptions : Option (List String)

/-- Comment pass of `processors/html_processor.process_html_file`: comments
are removed when the pseudo-tag `'comment'` is in either tag list. -/
def commentPass (r : Rules) (doc : Doc) : Doc :=
  if "comment" ∈ r.tags_to_remove ∨ "comment" ∈ r.tags_to_remove_with_content then
    removeComments doc
  else doc

/-- Unwrap pass: `for tag in tags_to_remove: if tag and tag != 'comment': ...unwrap`.
Each tag name is fully exhausted before the next is processed. -/
def unwrapPass (tags : List String) (doc : Doc) : Doc :=
  tags.foldl (fun d t => if t ≠ "" ∧ t ≠ "comment" then unwrapAll t d else d) doc

/-- Delete pass: `for tag in tags_to_remove_with_content: if tag and tag != 'comment': ...decompose`. -/
def deletePass (tags : List String) (doc : Doc) : Doc :=
  tags.foldl (fun d t => if t ≠ "" ∧ t ≠ "comment" then deleteAll t d else d) doc

/-- The tree transformation performed by
`processors/html_processor.process_html_file` between parsing and
serialization: comment removal, then the unwrap pass, then the delete pass,
then attribute cleaning, in that order. -/
def transform (r : Rules) (doc : Doc) : Doc :=
  attrsPass r.clean_attrs_mode r.attrs_exceptions
    (deletePass r.tags_to_remove_with_content
      (unwrapPass r.tags_to_remove
        (commentPass r doc)))

/-- The tree transformation performed by `html_modifier.process_html_file`:
one tag list with a boolean `remove_with_content` choosing `decompose` or
`unwrap` per element; comments are removed when `'comment'` is in the list;
attribute cleaning is identical to the processor variant. -/
def transformModifier (tags : List String) (removeWithContent : Bool)
    (mode : String) (exceptions : Option (List String)) (doc : Doc) : Doc :=
  let d1 := if "comment" ∈ tags then removeComments doc else doc
  let d2 := tags.foldl
    (fun d t =>
      if t ≠ "" ∧ t ≠ "comment" then
        if removeWithContent then deleteAll t d else unwrapAll t d
      else d) d1
  attrsPass mode exceptions d2

/-- Outcome of one `process_html_file` call: `True` on success, otherwise
the caught exception's message string (`return str(e)`). -/
inductive PResult where
  | ok
  | err (msg : String)
deriving DecidableEq, Repr

/-- File-level shape of `process_html_file`: read the input (may fail with
an I/O or decode error message), parse, transform, serialize, write the
result (may fail with an I/O error message).  The whole body is wrapped in
`try/except Exception`, so the caller sees `True` or an error string, never
an exception.  Parsing and serialization are the BeautifulSoup adapter,
passed as function arguments. -/
def processHtmlFile (readFile : Except String String)
    (writeFile : String → Except String Unit)
    (parse : String → Doc) (serialize : Doc → String) (r : Rules) : PResult :=
  match readFile with
  | .error e => .err e
  | .ok content =>
      match writeFile (serialize (transform r (parse content))) with
      | .error e => .err e
      | .ok _ => .ok

/-- Number of elements with tag name `t`, at any depth. -/
def countTag (t : String) : Doc → Nat
  | [] => 0
  | .element tag _ children :: rest =>
      (if tag = t then 1 else 0) + countTag t children + countTag t rest
  | _ :: rest => countTag t rest

/-- Number of comment nodes, at any depth. -/
def countComments : Doc → Nat
  | [] => 0
  | .element _ _ children :: rest => countComments children + countComments rest
  | .text _ :: rest => countComments rest
  | .comment _ :: rest => 1 + countComments rest

/-- Number of element nodes, at any depth. -/
def countElems : Doc → Nat
  | [] => 0
  | .element _ _ children :: rest => 1 + countElems children + countElems rest
  | _ :: rest => countElems rest

/-- The text-node contents of the forest, in document order (comments do
not contribute). -/
def texts : Doc → List String
  | [] => []
  | .element _ _ children :: rest => texts children ++ texts rest
  | .text s :: rest => s :: texts rest
  | .comment _ :: rest => texts rest

/-- Every element in the forest has a non-empty tag name.  Parsed HTML
always satisfies this: no parser produces an element with an empty name. -/
def wfTags : Doc → Bool
  | [] => true
  | .element tag _ children :: rest => (tag != "") && wfTags children && wfTags rest
  | _ :: rest => wfTags rest

/-- Rewrite every element's attribute mapping with `f` (applied to the tag
name and the current attributes), leaving tags, structure, text and comments
untouched. -/
def mapAttrs (f : String → List (String × String) → List (String × String)) : Doc → Doc
  | [] => []
  | .element tag attrs children :: rest =>
      .element tag (f tag attrs) (mapAttrs f children) :: mapAttrs f rest
  | n :: rest => n :: mapAttrs f rest

/-- Modelled from the spec: the attribute-policy selection predicate of
§4.2 pass 4 — `All` selects every element, `OnlyListed` selects elements
whose tag name is in the listed set, `AllExceptListed` selects elements
whose tag name is not in the listed set; an unrecognized policy selects
nothing. -/
def policySelects (mode : String) (listed : List String) (tag : String) : Bool :=
  if mode = "all" then true
  else if mode = "selected" then listed.contains tag
  else if mode = "all_except" then !(listed.contains tag)
  else false

/-- Modelled from the spec: the attribute-cleaning pass stated per element —
clear the attribute mapping of exactly the elements the policy selects and
touch nothing else. -/
def specAttrsClean (mode : String) (exceptions : Option (List String)) (d : Doc) : Doc :=
  mapAttrs (fun tag attrs => if policySelects mode (exceptions.getD []) tag then [] else attrs) d

/-! ### Basic counting lemmas -/

theorem countTag_append (t : String) (xs ys : Doc) :
    countTag t (xs ++ ys) = countTag t xs + countTag t ys := by
  induction xs with
  | nil => simp [countTag]
  | cons n rest ih => cases n <;> simp [countTag, ih, Nat.add_assoc]

theorem countComments_append (xs ys : Doc) :
    countComments (xs ++ ys) = countComments xs + countComments ys := by
  induction xs with
  | nil => simp [countComments]
  | cons n rest ih => cases n <;> simp [countComments, ih, Nat.add_assoc]

theorem countElems_append (xs ys : Doc) :
    countElems (xs ++ ys) = countElems xs + countElems ys := by
  induction xs with
  | nil => simp [countElems]
  | cons n rest ih => cases n <;> simp [countElems, ih, Nat.add_assoc]

theorem texts_append (xs ys : Doc) :
    texts (xs ++ ys) = texts xs ++ texts ys := by
  induction xs with
  | nil => simp [texts]
  | cons n rest ih => cases n <;> simp [texts, ih]

/-! ### Lemmas about `removeComments` -/

theorem countComments_removeComments (d : Doc) :
    countComments (removeComments d) = 0 := by
  induction d using removeComments.induct with
  | case1 => simp [removeComments, countComments]
  | case2 tag attrs children rest ih1 ih2 =>
      simp [removeComments, countComments, ih1, ih2]
  | case3 s rest ih => simp [removeComments, countComments, ih]
  | case4 s rest ih => simp [removeComments, ih]

theorem countTag_removeComments (t : String) (d : Doc) :
    countTag t (removeComments d) = countTag t d := by
  induction d using removeComments.induct with
  | case1 => simp [removeComments]
  | case2 tag attrs children rest ih1 ih2 =>
      simp [removeComments, countTag, ih1, ih2]
  | case3 s rest ih => simp [removeComments, countTag, ih]
  | case4 s rest ih => simp [removeComments, countTag, ih]

theorem countElems_removeComments (d : Doc) :
    countElems (removeComments d) = countElems d := by
  induction d using removeComments.induct with
  | case1 => simp [removeComments]
  | case2 tag attrs children rest ih1 ih2 =>
      simp [removeComments, countElems, ih1, ih2]
  | case3 s rest ih => simp [removeComments, countElems, ih]
  | case4 s rest ih => simp [removeComments, countElems, ih]

theorem texts_removeComments (d : Doc) :
    texts (removeComments d) = texts d := by
  induction d using removeComments.induct with
  | case1 => simp [removeComments]
  | case2 tag attrs children rest ih1 ih2 =>
      simp [removeComments, texts, ih1, ih2]
  | case3 s rest ih => simp [removeComments, texts, ih]
  | case4 s rest ih => simp [removeComments, texts, ih]

/-! ### Lemmas about `unwrapAll` -/

theorem countTag_unwrapAll_self (t : String) (d : Doc) :
    countTag t (unwrapAll t d) = 0 := by
  induction d using unwrapAll.induct t with
  | case1 => simp [unwrapAll, countTag]
  | case2 attrs children rest ih1 ih2 =>
      simp [unwrapAll, countTag_append, ih1, ih2]
  | case3 tag attrs children rest h ih1 ih2 =>
      simp [unwrapAll, h, countTag, ih1, ih2]
  | case4 n rest hne ih =>
      cases n with
      | element tag attrs children => exact (hne _ _ _ rfl).elim
      | text s => simp [unwrapAll, countTag, ih]
      | comment s => simp [unwrapAll, countTag, ih]

theorem countTag_unwrapAll_ne (s t : String) (h : s ≠ t) (d : Doc) :
    countTag s (unwrapAll t d) = countTag s d := by
  induction d using unwrapAll.induct t with
  | case1 => simp [unwrapAll]
  | case2 attrs children rest ih1 ih2 =>
      simp [unwrapAll, countTag_append, ih1, ih2, countTag, Ne.symm h]
  | case3 tag attrs children rest ht ih1 ih2 =>
      simp [unwrapAll, ht, countTag, ih1, ih2]
  | case4 n rest hne ih =>
      cases n with
      | element tag attrs children => exact (hne _ _ _ rfl).elim
      | text str => simp [unwrapAll, countTag, ih]
      | comment str => simp [unwrapAll, countTag, ih]

theorem texts_unwrapAll (t : String) (d : Doc) :
    texts (unwrapAll t d) = texts d := by
  induction d using unwrapAll.induct t with
  | case1 => simp [unwrapAll]
  | case2 attrs children rest ih1 ih2 =>
      simp [unwrapAll, texts_append, texts, ih1, ih2]
  | case3 tag attrs children rest h ih1 ih2 =>
      simp [unwrapAll, h, texts, ih1, ih2]
  | case4 n rest hne ih =>
      cases n with
      | element tag attrs children => exact (hne _ _ _ rfl).elim
      | text s => simp [unwrapAll, texts, ih]
      | comment s => simp [unwrapAll, texts, ih]

theorem countComments_unwrapAll (t : String) (d : Doc) :
    countComments (unwrapAll t d) = countComments d := by
  induction d using unwrapAll.induct t with
  | case1 => simp [unwrapAll]
  | case2 attrs children rest ih1 ih2 =>
      simp [unwrapAll, countComments_append, countComments, ih1, ih2]
  | case3 tag attrs children rest h ih1 ih2 =>
      simp [unwrapAll, h, countComments, ih1, ih2]
  | case4 n rest hne ih =>
      cases n with
      | element tag attrs children => exact (hne _ _ _ rfl).elim
      | text s => simp [unwrapAll, countComments, ih]
      | comment s => simp [unwrapAll, countComments, ih]

/-! ### Lemmas about `deleteAll` -/

theorem countTag_deleteAll_self (t : String) (d : Doc) :
    countTag t (deleteAll t d) = 0 := by
  induction d using deleteAll.induct t with
  | case1 => simp [deleteAll, countTag]
  | case2 attrs children rest ih =>
      simp [deleteAll, ih]
  | case3 tag attrs children rest h ih1 ih2 =>
      simp [deleteAll, h, countTag, ih1, ih2]
  | case4 n rest hne ih =>
      cases n with
      | element tag attrs children => exact (hne _ _ _ rfl).elim
      | text s => simp [deleteAll, countTag, ih]
      | comment s => simp [deleteAll, countTag, ih]

theorem countTag_deleteAll_le (s t : String) (d : Doc) :
    countTag s (deleteAll t d) ≤ countTag s d := by
  induction d using deleteAll.induct t with
  | case1 => simp [deleteAll]
  | case2 attrs children rest ih =>
      simp only [deleteAll, countTag, eq_self_iff_true, if_true]
      omega
  | case3 tag attrs children rest h ih1 ih2 =>
      simp only [deleteAll, if_neg h, countTag]
      omega
  | case4 n rest hne ih =>
      cases n with
      | element tag attrs children => exact (hne _ _ _ rfl).elim
      | text str => simp [deleteAll, countTag, ih]
      | comment str => simp [deleteAll, countTag, ih]

theorem deleteAll_of_countTag_zero (t : String) (d : Doc)
    (h : countTag t d = 0) : deleteAll t d = d := by
  induction d using deleteAll.induct t with
  | case1 => simp [deleteAll]
  | case2 attrs children rest ih =>
      simp [countTag] at h
  | case3 tag attrs children rest ht ih1 ih2 =>
      simp only [countTag, if_neg ht] at h
      simp only [deleteAll, if_neg ht]
      refine congrArg₂ _ (congrArg _ ?_) ?_
      · exact ih1 (by omega)
      · exact ih2 (by omega)
  | case4 n rest hne ih =>
      cases n with
      | element tag attrs children => exact (hne _ _ _ rfl).elim
      | text s =>
          simp only [countTag] at h
          simp [deleteAll, ih h]
      | comment s =>
          simp only [countTag] at h
          simp [deleteAll, ih h]

/-! ### A structural induction principle for forests -/

theorem forest_induction (motive : Doc → Prop) (hnil : motive [])
    (helem : ∀ tag attrs children rest, motive children → motive rest →
      motive (.element tag attrs children :: rest))
    (htext : ∀ s rest, motive rest → motive (.text s :: rest))
    (hcomment : ∀ s rest, motive rest → motive (.comment s :: rest)) :
    ∀ d, motive d := by
  intro d
  induction d using removeComments.induct with
  | case1 => exact hnil
  | case2 tag attrs children rest ih1 ih2 => exact helem _ _ _ _ ih1 ih2
  | case3 s rest ih => exact htext _ _ ih
  | case4 s rest ih => exact hcomment _ _ ih

/-! ### Zero-count preservation -/

theorem countTag_unwrapAll_zero (s t : String) (d : Doc)
    (h : countTag s d = 0) : countTag s (unwrapAll t d) = 0 := by
  by_cases hs : s = t
  · subst hs; exact countTag_unwrapAll_self s d
  · rw [countTag_unwrapAll_ne s t hs d]; exact h

theorem countTag_deleteAll_zero (s t : String) (d : Doc)
    (h : countTag s d = 0) : countTag s (deleteAll t d) = 0 :=
  Nat.le_zero.mp (h ▸ countTag_deleteAll_le s t d)

/-! ### Lemmas about the unwrap pass -/

theorem unwrapPass_nil (d : Doc) : unwrapPass [] d = d := rfl

theorem unwrapPass_cons (t : String) (L : List String) (d : Doc) :
    unwrapPass (t :: L) d =
      unwrapPass L (if t ≠ "" ∧ t ≠ "comment" then unwrapAll t d else d) := rfl

theorem countTag_unwrapPass_zero (t : String) (L : List String) (d : Doc)
    (h : countTag t d = 0) : countTag t (unwrapPass L d) = 0 := by
  induction L generalizing d with
  | nil => exact h
  | cons a L ih =>
      rw [unwrapPass_cons]
      split
      · exact ih _ (countTag_unwrapAll_zero t a d h)
      · exact ih _ h

theorem countTag_unwrapPass_mem (t : String) (L : List String) (d : Doc)
    (h1 : t ∈ L) (h2 : t ≠ "") (h3 : t ≠ "comment") :
    countTag t (unwrapPass L d) = 0 := by
  induction L generalizing d with
  | nil => exact absurd h1 (List.not_mem_nil t)
  | cons a L ih =>
      rw [unwrapPass_cons]
      by_cases ha : a = t
      · rw [ha, if_pos ⟨h2, h3⟩]
        exact countTag_unwrapPass_zero t L _ (countTag_unwrapAll_self t d)
      · have ht : t ∈ L := by
          cases h1 with
          | head => exact absurd rfl ha
          | tail _ h => exact h
        exact ih _ ht

theorem countTag_unwrapPass_not_mem (s : String) (L : List String) (d : Doc)
    (h : s ∉ L) : countTag s (unwrapPass L d) = countTag s d := by
  induction L generalizing d with
  | nil => rfl
  | cons a L ih =>
      have has : s ≠ a := fun e => h (e ▸ List.mem_cons_self a L)
      have hL : s ∉ L := fun m => h (List.mem_cons_of_mem a m)
      rw [unwrapPass_cons]
      split
      · rw [ih _ hL, countTag_unwrapAll_ne s a has d]
      · exact ih _ hL

theorem texts_unwrapPass (L : List String) (d : Doc) :
    texts (unwrapPass L d) = texts d := by
  induction L generalizing d with
  | nil => rfl
  | cons a L ih =>
      rw [unwrapPass_cons]
      split
      · rw [ih _, texts_unwrapAll]
      · exact ih _

/-! ### Lemmas about the delete pass -/

theorem deletePass_nil (d : Doc) : deletePass [] d = d := rfl

theorem deletePass_cons (t : String) (L : List String) (d : Doc) :
    deletePass (t :: L) d =
      deletePass L (if t ≠ "" ∧ t ≠ "comment" then deleteAll t d else d) := rfl

theorem countTag_deletePass_zero (t : String) (L : List String) (d : Doc)
    (h : countTag t d = 0) : countTag t (deletePass L d) = 0 := by
  induction L generalizing d with
  | nil => exact h
  | cons a L ih =>
      rw [deletePass_cons]
      split
      · exact ih _ (countTag_deleteAll_zero t a d h)
      · exact ih _ h

theorem countTag_deletePass_mem (t : String) (L : List String) (d : Doc)
    (h1 : t ∈ L) (h2 : t ≠ "") (h3 : t ≠ "comment") :
    countTag t (deletePass L d) = 0 := by
  induction L generalizing d with
  | nil => exact absurd h1 (List.not_mem_nil t)
  | cons a L ih =>
      rw [deletePass_cons]
      by_cases ha : a = t
      · rw [ha, if_pos ⟨h2, h3⟩]
        exact countTag_deletePass_zero t L _ (countTag_deleteAll_self t d)
      · have ht : t ∈ L := by
          cases h1 with
          | head => exact absurd rfl ha
          | tail _ h => exact h
        exact ih _ ht

/-- On a document with no element named `t`, deleting a tag list is the same
as deleting the list with `t` filtered out: each occurrence of `t` in the
list finds nothing to decompose. -/
theorem deletePass_filter_of_zero (t : String) (L : List String) (d : Doc)
    (h : countTag t d = 0) :
    deletePass L d = deletePass (L.filter (fun s => s != t)) d := by
  induction L generalizing d with
  | nil => rfl
  | cons a L ih =>
      by_cases ha : a = t
      · subst ha
        have hfilter : (a :: L).filter (fun s => s != a) = L.filter (fun s => s != a) := by
          simp [List.filter_cons]
        have hstep : (if a ≠ "" ∧ a ≠ "comment" then deleteAll a d else d) = d := by
          split
          · exact deleteAll_of_countTag_zero a d h
          · rfl
        rw [hfilter, deletePass_cons, hstep]
        exact ih d h
      · have hfilter : (a :: L).filter (fun s => s != t) = a :: L.filter (fun s => s != t) := by
          simp [List.filter_cons, ha]
        rw [hfilter, deletePass_cons, deletePass_cons]
        split
        · exact ih (deleteAll a d) (countTag_deleteAll_zero t a d h)
        · exact ih d h

/-! ### Lemmas about `mapAttrs` and the attribute-cleaning pass -/

theorem mapAttrs_congr (f g : String → List (String × String) → List (String × String))
    (h : ∀ tag a, f tag a = g tag a) (d : Doc) : mapAttrs f d = mapAttrs g d := by
  have hfg : f = g := funext fun tag => funext fun a => h tag a
  rw [hfg]

theorem mapAttrs_id (d : Doc) : mapAttrs (fun _ a => a) d = d := by
  induction d using forest_induction with
  | hnil => simp [mapAttrs]
  | helem tag attrs children rest ih1 ih2 => simp [mapAttrs, ih1, ih2]
  | htext s rest ih => simp [mapAttrs, ih]
  | hcomment s rest ih => simp [mapAttrs, ih]

theorem mapAttrs_mapAttrs (f g : String → List (String × String) → List (String × String))
    (d : Doc) :
    mapAttrs f (mapAttrs g d) = mapAttrs (fun tag a => f tag (g tag a)) d := by
  induction d using forest_induction with
  | hnil => simp [mapAttrs]
  | helem tag attrs children rest ih1 ih2 => simp [mapAttrs, ih1, ih2]
  | htext s rest ih => simp [mapAttrs, ih]
  | hcomment s rest ih => simp [mapAttrs, ih]

theorem wfTags_mapAttrs (f : String → List (String × String) → List (String × String))
    (d : Doc) : wfTags (mapAttrs f d) = wfTags d := by
  induction d using forest_induction with
  | hnil => simp [mapAttrs]
  | helem tag attrs children rest ih1 ih2 => simp [mapAttrs, wfTags, ih1, ih2]
  | htext s rest ih => simp [mapAttrs, wfTags, ih]
  | hcomment s rest ih => simp [mapAttrs, wfTags, ih]

theorem mapAttrs_congr_wf (f g : String → List (String × String) → List (String × String))
    (d : Doc) (hwf : wfTags d = true) (h : ∀ tag a, tag ≠ "" → f tag a = g tag a) :
    mapAttrs f d = mapAttrs g d := by
  induction d using forest_induction with
  | hnil => simp [mapAttrs]
  | helem tag attrs children rest ih1 ih2 =>
      simp only [wfTags, Bool.and_eq_true, bne_iff_ne, ne_eq] at hwf
      obtain ⟨⟨htag, hch⟩, hrest⟩ := hwf
      simp [mapAttrs, ih1 hch, ih2 hrest, h tag attrs htag]
  | htext s rest ih =>
      simp only [wfTags] at hwf
      simp [mapAttrs, ih hwf]
  | hcomment s rest ih =>
      simp only [wfTags] at hwf
      simp [mapAttrs, ih hwf]

theorem clearAttrsAll_eq (d : Doc) :
    clearAttrsAll d = mapAttrs (fun _ _ => []) d := by
  induction d using forest_induction with
  | hnil => simp [clearAttrsAll, mapAttrs]
  | helem tag attrs children rest ih1 ih2 => simp [clearAttrsAll, mapAttrs, ih1, ih2]
  | htext s rest ih => simp [clearAttrsAll, mapAttrs, ih]
  | hcomment s rest ih => simp [clearAttrsAll, mapAttrs, ih]

theorem clearAttrsTag_eq (t : String) (d : Doc) :
    clearAttrsTag t d = mapAttrs (fun tag a => if tag = t then [] else a) d := by
  induction d using forest_induction with
  | hnil => simp [clearAttrsTag, mapAttrs]
  | helem tag attrs children rest ih1 ih2 => simp [clearAttrsTag, mapAttrs, ih1, ih2]
  | htext s rest ih => simp [clearAttrsTag, mapAttrs, ih]
  | hcomment s rest ih => simp [clearAttrsTag, mapAttrs, ih]

theorem clearAttrsExcept_eq (E : List String) (d : Doc) :
    clearAttrsExcept E d = mapAttrs (fun tag a => if tag ∈ E then a else []) d := by
  induction d using forest_induction with
  | hnil => simp [clearAttrsExcept, mapAttrs]
  | helem tag attrs children rest ih1 ih2 => simp [clearAttrsExcept, mapAttrs, ih1, ih2]
  | htext s rest ih => simp [clearAttrsExcept, mapAttrs, ih]
  | hcomment s rest ih => simp [clearAttrsExcept, mapAttrs, ih]

/-- The `'selected'` loop of the source — one full-tree clearing sweep per
non-empty listed tag — is the same as one sweep clearing every element whose
tag name is a member of the list, provided no element has an empty tag
name. -/
theorem selected_fold_eq (E : List String) (d : Doc) (hwf : wfTags d = true) :
    E.foldl (fun d t => if t ≠ "" then clearAttrsTag t d else d) d =
      mapAttrs (fun tag a => if tag ∈ E then [] else a) d := by
  induction E generalizing d with
  | nil =>
      rw [List.foldl_nil]
      have hfn : (fun (tag : String) (a : List (String × String)) =>
          if tag ∈ ([] : List String) then [] else a) = fun _ a => a := by
        funext tag a
        simp
      rw [hfn, mapAttrs_id]
  | cons t E ih =>
      rw [List.foldl_cons]
      by_cases ht : t = ""
      · rw [if_neg (by simp [ht]), ih d hwf]
        apply mapAttrs_congr_wf _ _ d hwf
        intro tag a htag
        simp [ht, List.mem_cons, htag]
      · rw [if_pos ht, clearAttrsTag_eq, ih _ (by rw [wfTags_mapAttrs]; exact hwf),
          mapAttrs_mapAttrs]
        apply mapAttrs_congr
        intro tag a
        by_cases hmem : tag ∈ E
        · simp [hmem, List.mem_cons]
        · by_cases htag : tag = t
          · simp [hmem, htag, List.mem_cons]
          · simp [hmem, htag, List.mem_cons]

/-! ### Lemmas about the comment pass and empty rules -/

theorem commentPass_of_mem (r : Rules)
    (h : "comment" ∈ r.tags_to_remove ∨ "comment" ∈ r.tags_to_remove_with_content)
    (doc : Doc) : commentPass r doc = removeComments doc := by
  rw [commentPass, if_pos h]

theorem commentPass_of_not_mem (r : Rules)
    (h : ¬("comment" ∈ r.tags_to_remove ∨ "comment" ∈ r.tags_to_remove_with_content))
    (doc : Doc) : commentPass r doc = doc := by
  rw [commentPass, if_neg h]

/-- With no tags to unwrap or delete and an attribute mode that matches none
of the three recognized modes, the whole transform leaves the tree
untouched. -/
theorem transform_no_rules (r : Rules) (h1 : r.tags_to_remove = [])
    (h2 : r.tags_to_remove_with_content = []) (h3 : r.clean_attrs_mode ≠ "all")
    (h4 : r.clean_attrs_mode ≠ "selected") (h5 : r.clean_attrs_mode ≠ "all_except")
    (doc : Doc) : transform r doc = doc := by
  have hc : commentPass r doc = doc := by
    rw [commentPass_of_not_mem]
    rw [h1, h2]
    simp
  rw [transform, hc, h1, h2, unwrapPass_nil, deletePass_nil, attrsPass,
    if_neg h3, if_neg h4, if_neg h5]

/-! ### Well-formedness (no empty tag names) is preserved by all passes -/

theorem wfTags_append (xs ys : Doc) :
    wfTags (xs ++ ys) = (wfTags xs && wfTags ys) := by
  induction xs with
  | nil => simp [wfTags]
  | cons n rest ih => cases n <;> simp [wfTags, ih, Bool.and_assoc]

theorem wfTags_removeComments (d : Doc) :
    wfTags (removeComments d) = wfTags d := by
  induction d using forest_induction with
  | hnil => simp [removeComments]
  | helem tag attrs children rest ih1 ih2 => simp [removeComments, wfTags, ih1, ih2]
  | htext s rest ih => simp [removeComments, wfTags, ih]
  | hcomment s rest ih => simp [removeComments, wfTags, ih]

theorem wfTags_unwrapAll (t : String) (d : Doc) (h : wfTags d = true) :
    wfTags (unwrapAll t d) = true := by
  induction d using unwrapAll.induct t with
  | case1 => simpa [unwrapAll] using h
  | case2 attrs children rest ih1 ih2 =>
      simp only [wfTags, Bool.and_eq_true] at h
      simp [unwrapAll, wfTags_append, ih1 h.1.2, ih2 h.2]
  | case3 tag attrs children rest hne ih1 ih2 =>
      simp only [wfTags, Bool.and_eq_true] at h
      simp [unwrapAll, hne, wfTags, ih1 h.1.2, ih2 h.2, h.1.1]
  | case4 n rest hne ih =>
      cases n with
      | element tag attrs children => exact (hne _ _ _ rfl).elim
      | text s =>
          simp only [wfTags] at h
          simp [unwrapAll, wfTags, ih h]
      | comment s =>
          simp only [wfTags] at h
          simp [unwrapAll, wfTags, ih h]

theorem wfTags_deleteAll (t : String) (d : Doc) (h : wfTags d = true) :
    wfTags (deleteAll t d) = true := by
  induction d using deleteAll.induct t with
  | case1 => simpa [deleteAll] using h
  | case2 attrs children rest ih =>
      simp only [wfTags, Bool.and_eq_true] at h
      simp [deleteAll, ih h.2]
  | case3 tag attrs children rest hne ih1 ih2 =>
      simp only [wfTags, Bool.and_eq_true] at h
      simp [deleteAll, hne, wfTags, ih1 h.1.2, ih2 h.2, h.1.1]
  | case4 n rest hne ih =>
      cases n with
      | element tag attrs children => exact (hne _ _ _ rfl).elim
      | text s =>
          simp only [wfTags] at h
          simp [deleteAll, wfTags, ih h]
      | comment s =>
          simp only [wfTags] at h
          simp [deleteAll, wfTags, ih h]

theorem wfTags_commentPass (r : Rules) (d : Doc) (h : wfTags d = true) :
    wfTags (commentPass r d) = true := by
  rw [commentPass]
  split
  · rw [wfTags_removeComments]; exact h
  · exact h

theorem wfTags_unwrapPass (L : List String) (d : Doc) (h : wfTags d = true) :
    wfTags (unwrapPass L d) = true := by
  induction L generalizing d with
  | nil => exact h
  | cons a L ih =>
      rw [unwrapPass_cons]
      split
      · exact ih _ (wfTags_unwrapAll a d h)
      · exact ih _ h

theorem wfTags_deletePass (L : List String) (d : Doc) (h : wfTags d = true) :
    wfTags (deletePass L d) = true := by
  induction L generalizing d with
  | nil => exact h
  | cons a L ih =>
      rw [deletePass_cons]
      split
      · exact ih _ (wfTags_deleteAll a d h)
      · exact ih _ h

/-! ### Filtering empty tag names out of the rule lists changes nothing -/

theorem fold_filter_empty (step : String → Doc → Doc) (g : String → Prop)
    [DecidablePred g] (hg : ¬ g "") (L : List String) (d : Doc) :
    (L.filter (fun s => s != "")).foldl (fun d t => if g t then step t d else d) d =
      L.foldl (fun d t => if g t then step t d else d) d := by
  induction L generalizing d with
  | nil => rfl
  | cons a L ih =>
      by_cases ha : a = ""
      · subst ha
        rw [List.filter_cons]
        simp only [bne_self_eq_false, Bool.false_eq_true, if_false]
        rw [List.foldl_cons, if_neg hg]
        exact ih d
      · rw [List.filter_cons]
        have hbne : (a != "") = true := by simp [ha]
        simp only [hbne, if_true]
        rw [List.foldl_cons, List.foldl_cons]
        exact ih _

theorem unwrapPass_filter_empty (L : List String) (d : Doc) :
    unwrapPass (L.filter (fun s => s != "")) d = unwrapPass L d :=
  fold_filter_empty (fun t d => unwrapAll t d) (fun t => t ≠ "" ∧ t ≠ "comment")
    (by simp) L d

theorem deletePass_filter_empty (L : List String) (d : Doc) :
    deletePass (L.filter (fun s => s != "")) d = deletePass L d :=
  fold_filter_empty (fun t d => deleteAll t d) (fun t => t ≠ "" ∧ t ≠ "comment")
    (by simp) L d

theorem clearAttrsExcept_filter_empty (E : List String) (d : Doc)
    (hwf : wfTags d = true) :
    clearAttrsExcept (E.filter (fun s => s != "")) d = clearAttrsExcept E d := by
  rw [clearAttrsExcept_eq, clearAttrsExcept_eq]
  apply mapAttrs_congr_wf _ _ _ hwf
  intro tag a htag
  have hm : (tag ∈ E.filter (fun s => s != "")) ↔ tag ∈ E := by
    simp [List.mem_filter, htag]
  simp [hm]

theorem attrsPass_filter_empty (mode : String) (exc : Option (List String)) (d : Doc)
    (hwf : wfTags d = true) :
    attrsPass mode (exc.map (fun l => l.filter (fun s => s != ""))) d =
      attrsPass mode exc d := by
  rw [attrsPass, attrsPass]
  by_cases h1 : mode = "all"
  · rw [if_pos h1, if_pos h1]
  · rw [if_neg h1, if_neg h1]
    by_cases h2 : mode = "selected"
    · rw [if_pos h2, if_pos h2]
      cases exc with
      | none => rfl
      | some l =>
          exact fold_filter_empty (fun t d => clearAttrsTag t d) (fun t => t ≠ "")
            (by simp) l d
    · rw [if_neg h2, if_neg h2]
      by_cases h3 : mode = "all_except"
      · rw [if_pos h3, if_pos h3]
        cases exc with
        | none => rfl
        | some l => exact clearAttrsExcept_filter_empty l d hwf
      · rw [if_neg h3, if_neg h3]

/-! ### The claims -/

/-- C1: when a non-empty tag name `t` (other than `'comment'`) is in both the
unwrap set and the delete set, the unwrap pass removes every element named
`t` before the delete pass runs, the delete pass finds no remaining element
named `t`, and the output equals the output produced with `t` absent from
the delete set. -/
theorem unwrap_precedes_delete (r : Rules) (doc : Doc) (t : String)
    (h1 : t ≠ "") (h2 : t ≠ "comment") (h3 : t ∈ r.tags_to_remove)
    (_h4 : t ∈ r.tags_to_remove_with_content) :
    countTag t (unwrapPass r.tags_to_remove (commentPass r doc)) = 0 ∧
    transform r doc =
      transform (Rules.mk r.tags_to_remove
        (r.tags_to_remove_with_content.filter (fun s => s != t))
        r.clean_attrs_mode r.attrs_exceptions) doc := by
  have hz : countTag t (unwrapPass r.tags_to_remove (commentPass r doc)) = 0 :=
    countTag_unwrapPass_mem t _ _ h3 h1 h2
  refine ⟨hz, ?_⟩
  have hmem : ("comment" ∈ r.tags_to_remove ∨
      "comment" ∈ r.tags_to_remove_with_content.filter (fun s => s != t)) ↔
      ("comment" ∈ r.tags_to_remove ∨ "comment" ∈ r.tags_to_remove_with_content) := by
    simp [List.mem_filter, Ne.symm h2]
  have hcp : commentPass (Rules.mk r.tags_to_remove
      (r.tags_to_remove_with_content.filter (fun s => s != t))
      r.clean_attrs_mode r.attrs_exceptions) doc = commentPass r doc := by
    rw [commentPass, commentPass]
    simp only [hmem]
  rw [transform, transform]
  dsimp only
  rw [hcp, deletePass_filter_of_zero t r.tags_to_remove_with_content _ hz]

theorem unwrap_precedes_delete_witness :
    countTag "div" (unwrapPass (Rules.mk ["div"] ["div"] "all" none).tags_to_remove
      (commentPass (Rules.mk ["div"] ["div"] "all" none)
        [Node.element "div" [] [Node.text "x"]])) = 0 ∧
    transform (Rules.mk ["div"] ["div"] "all" none) [Node.element "div" [] [Node.text "x"]] =
      transform (Rules.mk ["div"] (["div"].filter (fun s => s != "div")) "all" none)
        [Node.element "div" [] [Node.text "x"]] :=
  unwrap_precedes_delete (Rules.mk ["div"] ["div"] "all" none)
    [Node.element "div" [] [Node.text "x"]] "div"
    (by decide) (by decide) (by decide) (by decide)

/-- C2: after the unwrap pass, no element with an unwrapped tag name remains
at any depth, the text content is preserved in order, elements with tag
names not in the unwrap set keep their count, and on
`<div><b>x</b></div>` with unwrap set `{div}` the output is `<b>x</b>`
with the text `x` unchanged. -/
theorem unwrap_pass_spec (L : List String) (doc : Doc) (t s : String)
    (h1 : t ∈ L) (h2 : t ≠ "") (h3 : t ≠ "comment") (hs : s ∉ L) :
    countTag t (unwrapPass L doc) = 0 ∧
    texts (unwrapPass L doc) = texts doc ∧
    countTag s (unwrapPass L doc) = countTag s doc ∧
    transform (Rules.mk ["div"] [] "all" none)
        [Node.element "div" [] [Node.element "b" [] [Node.text "x"]]] =
      [Node.element "b" [] [Node.text "x"]] := by
  refine ⟨countTag_unwrapPass_mem t L doc h1 h2 h3, texts_unwrapPass L doc,
    countTag_unwrapPass_not_mem s L doc hs, ?_⟩
  simp [transform, commentPass, unwrapPass, deletePass, attrsPass, unwrapAll,
    clearAttrsAll]

theorem unwrap_pass_spec_witness :
    countTag "div" (unwrapPass ["div"]
      [Node.element "div" [] [Node.element "b" [] [Node.text "x"]]]) = 0 ∧
    texts (unwrapPass ["div"] [Node.element "div" [] [Node.element "b" [] [Node.text "x"]]]) =
      texts [Node.element "div" [] [Node.element "b" [] [Node.text "x"]]] ∧
    countTag "b" (unwrapPass ["div"]
        [Node.element "div" [] [Node.element "b" [] [Node.text "x"]]]) =
      countTag "b" [Node.element "div" [] [Node.element "b" [] [Node.text "x"]]] ∧
    transform (Rules.mk ["div"] [] "all" none)
        [Node.element "div" [] [Node.element "b" [] [Node.text "x"]]] =
      [Node.element "b" [] [Node.text "x"]] :=
  unwrap_pass_spec ["div"] [Node.element "div" [] [Node.element "b" [] [Node.text "x"]]]
    "div" "b" (by decide) (by decide) (by decide) (by decide)

/-- C3: the delete pass removes every element with a deleted tag name
together with its entire subtree, and on `<p>keep<script>evil()</script></p>`
with delete set `{script}` the output is `<p>keep</p>` with no trace of
`evil()`. -/
theorem delete_pass_spec (L : List String) (doc : Doc) (t : String)
    (h1 : t ∈ L) (h2 : t ≠ "") (h3 : t ≠ "comment") :
    countTag t (deletePass L doc) = 0 ∧
    transform (Rules.mk [] ["script"] "all" none)
        [Node.element "p" [] [Node.text "keep",
          Node.element "script" [] [Node.text "evil()"]]] =
      [Node.element "p" [] [Node.text "keep"]] := by
  refine ⟨countTag_deletePass_mem t L doc h1 h2 h3, ?_⟩
  simp [transform, commentPass, unwrapPass, deletePass, attrsPass, deleteAll,
    clearAttrsAll]

theorem delete_pass_spec_witness :
    countTag "script" (deletePass ["script"]
      [Node.element "p" [] [Node.text "keep",
        Node.element "script" [] [Node.text "evil()"]]]) = 0 ∧
    transform (Rules.mk [] ["script"] "all" none)
        [Node.element "p" [] [Node.text "keep",
          Node.element "script" [] [Node.text "evil()"]]] =
      [Node.element "p" [] [Node.text "keep"]] :=
  delete_pass_spec ["script"]
    [Node.element "p" [] [Node.text "keep",
      Node.element "script" [] [Node.text "evil()"]]] "script"
    (by decide) (by decide) (by decide)

/-- C4: when comment removal is enabled (`'comment'` in either rule list),
the comment pass detaches every comment node at any depth and leaves all
element and text nodes in place; on `<p><!--secret--></p>` the output is
`<p></p>` even though `p` is in no rule set, under either enabling list. -/
theorem comment_removal_spec (r : Rules) (doc : Doc) (s : String)
    (h : "comment" ∈ r.tags_to_remove ∨ "comment" ∈ r.tags_to_remove_with_content) :
    countComments (commentPass r doc) = 0 ∧
    countTag s (commentPass r doc) = countTag s doc ∧
    countElems (commentPass r doc) = countElems doc ∧
    texts (commentPass r doc) = texts doc ∧
    transform (Rules.mk ["comment"] [] "all" none)
        [Node.element "p" [] [Node.comment "secret"]] = [Node.element "p" [] []] ∧
    transform (Rules.mk [] ["comment"] "all" none)
        [Node.element "p" [] [Node.comment "secret"]] = [Node.element "p" [] []] := by
  rw [commentPass_of_mem r h doc]
  refine ⟨countComments_removeComments doc, countTag_removeComments s doc,
    countElems_removeComments doc, texts_removeComments doc, ?_, ?_⟩
  · simp [transform, commentPass, unwrapPass, deletePass, attrsPass,
      removeComments, clearAttrsAll]
  · simp [transform, commentPass, unwrapPass, deletePass, attrsPass,
      removeComments, clearAttrsAll]

theorem comment_removal_spec_witness :
    countComments (commentPass (Rules.mk ["comment"] [] "all" none)
      [Node.element "p" [] [Node.comment "secret"]]) = 0 ∧
    countTag "p" (commentPass (Rules.mk ["comment"] [] "all" none)
        [Node.element "p" [] [Node.comment "secret"]]) =
      countTag "p" [Node.element "p" [] [Node.comment "secret"]] ∧
    countElems (commentPass (Rules.mk ["comment"] [] "all" none)
        [Node.element "p" [] [Node.comment "secret"]]) =
      countElems [Node.element "p" [] [Node.comment "secret"]] ∧
    texts (commentPass (Rules.mk ["comment"] [] "all" none)
        [Node.element "p" [] [Node.comment "secret"]]) =
      texts [Node.element "p" [] [Node.comment "secret"]] ∧
    transform (Rules.mk ["comment"] [] "all" none)
        [Node.element "p" [] [Node.comment "secret"]] = [Node.element "p" [] []] ∧
    transform (Rules.mk [] ["comment"] "all" none)
        [Node.element "p" [] [Node.comment "secret"]] = [Node.element "p" [] []] :=
  comment_removal_spec (Rules.mk ["comment"] [] "all" none)
    [Node.element "p" [] [Node.comment "secret"]] "p" (by simp)

/-- C5: the attribute-cleaning pass empties the attribute mapping of exactly
the elements selected by the policy — `'all'`: every element; `'selected'`:
only elements whose tag name is listed; `'all_except'`: every element whose
tag name is not listed — and changes nothing else; under `'all_except'` with
listed set `{a}`, `<a href="x">` keeps `href` while `<p class="y">` loses
`class`. -/
theorem attrs_policy_spec (mode : String) (exc : Option (List String)) (doc : Doc)
    (hwf : wfTags doc = true) :
    attrsPass mode exc doc = specAttrsClean mode exc doc ∧
    transform (Rules.mk [] [] "all_except" (some ["a"]))
        [Node.element "a" [("href", "x")] [Node.text "t"],
         Node.element "p" [("class", "y")] [Node.text "z"]] =
      [Node.element "a" [("href", "x")] [Node.text "t"],
       Node.element "p" [] [Node.text "z"]] := by
  constructor
  · rw [attrsPass, specAttrsClean]
    by_cases h1 : mode = "all"
    · rw [if_pos h1, clearAttrsAll_eq]
      apply mapAttrs_congr
      intro tag a
      simp [policySelects, h1]
    · rw [if_neg h1]
      by_cases h2 : mode = "selected"
      · rw [if_pos h2, selected_fold_eq _ _ hwf]
        apply mapAttrs_congr
        intro tag a
        by_cases hm : tag ∈ exc.getD []
        · simp [policySelects, h1, h2, hm, List.elem_iff]
        · simp [policySelects, h1, h2, hm, List.elem_iff]
      · rw [if_neg h2]
        by_cases h3 : mode = "all_except"
        · rw [if_pos h3, clearAttrsExcept_eq]
          apply mapAttrs_congr
          intro tag a
          by_cases hm : tag ∈ exc.getD []
          · simp [policySelects, h1, h2, h3, hm, List.elem_iff]
          · simp [policySelects, h1, h2, h3, hm, List.elem_iff]
        · rw [if_neg h3]
          have hsel : mapAttrs (fun tag a =>
              if policySelects mode (exc.getD []) tag then [] else a) doc =
              mapAttrs (fun _ a => a) doc := by
            apply mapAttrs_congr
            intro tag a
            simp [policySelects, h1, h2, h3]
          rw [hsel, mapAttrs_id]
  · simp [transform, commentPass, unwrapPass, deletePass, attrsPass,
      clearAttrsExcept]

theorem attrs_policy_spec_witness :
    wfTags [Node.element "a" [("href", "x")] [Node.text "t"],
      Node.element "p" [("class", "y")] [Node.text "z"]] = true ∧
    (attrsPass "all_except" (some ["a"])
        [Node.element "a" [("href", "x")] [Node.text "t"],
         Node.element "p" [("class", "y")] [Node.text "z"]] =
      specAttrsClean "all_except" (some ["a"])
        [Node.element "a" [("href", "x")] [Node.text "t"],
         Node.element "p" [("class", "y")] [Node.text "z"]] ∧
    transform (Rules.mk [] [] "all_except" (some ["a"]))
        [Node.element "a" [("href", "x")] [Node.text "t"],
         Node.element "p" [("class", "y")] [Node.text "z"]] =
      [Node.element "a" [("href", "x")] [Node.text "t"],
       Node.element "p" [] [Node.text "z"]]) :=
  ⟨by simp [wfTags],
    attrs_policy_spec "all_except" (some ["a"])
      [Node.element "a" [("href", "x")] [Node.text "t"],
       Node.element "p" [("class", "y")] [Node.text "z"]] (by simp [wfTags])⟩

/-- C6: with empty rules (no tags to unwrap or delete, comment removal off,
an attribute mode that clears nothing) the transform mutates nothing, so the
parse–transform–serialize pipeline is idempotent at the text level for any
parser adapter satisfying the spec's stability contract
`parse (serialize (parse s)) = parse s`. -/
theorem noop_rules_idempotent (parse : String → Doc) (serialize : Doc → String)
    (hstable : ∀ s, parse (serialize (parse s)) = parse s)
    (r : Rules) (h1 : r.tags_to_remove = []) (h2 : r.tags_to_remove_with_content = [])
    (h3 : r.clean_attrs_mode ≠ "all") (h4 : r.clean_attrs_mode ≠ "selected")
    (h5 : r.clean_attrs_mode ≠ "all_except") (text : String) :
    serialize (transform r (parse (serialize (transform r (parse text))))) =
      serialize (transform r (parse text)) := by
  rw [transform_no_rules r h1 h2 h3 h4 h5, transform_no_rules r h1 h2 h3 h4 h5,
    hstable]

theorem noop_rules_idempotent_witness :
    (fun d => match d with | [Node.text s] => s | _ => "")
        (transform (Rules.mk [] [] "none" none)
          ((fun s => [Node.text s])
            ((fun d => match d with | [Node.text s] => s | _ => "")
              (transform (Rules.mk [] [] "none" none)
                ((fun s => [Node.text s]) "<p>hello"))))) =
      (fun d => match d with | [Node.text s] => s | _ => "")
        (transform (Rules.mk [] [] "none" none) ((fun s => [Node.text s]) "<p>hello")) :=
  noop_rules_idempotent (fun s => [Node.text s])
    (fun d => match d with | [Node.text s] => s | _ => "")
    (fun _ => rfl) (Rules.mk [] [] "none" none) rfl rfl
    (by decide) (by decide) (by decide) "<p>hello"

/-- C7: `process_html_file` never propagates an exception — it returns `True`
exactly when reading, transforming and writing all succeed, and otherwise
returns the caught exception's message; the transform itself introduces no
failure, so every error message originates from the read or the write. -/
theorem process_html_file_result (readFile : Except String String)
    (writeFile : String → Except String Unit) (parse : String → Doc)
    (serialize : Doc → String) (r : Rules) :
    (processHtmlFile readFile writeFile parse serialize r = .ok ↔
      ∃ c, readFile = .ok c ∧ writeFile (serialize (transform r (parse c))) = .ok ()) ∧
    (∀ m, processHtmlFile readFile writeFile parse serialize r = .err m →
      readFile = .error m ∨
        ∃ c, readFile = .ok c ∧
          writeFile (serialize (transform r (parse c))) = .error m) := by
  cases readFile with
  | error e =>
      refine ⟨⟨fun h => ?_, fun ⟨c, hc, _⟩ => ?_⟩, fun m hm => ?_⟩
      · simp [processHtmlFile] at h
      · exact absurd hc (by simp)
      · left
        simp only [processHtmlFile, PResult.err.injEq] at hm
        rw [hm]
  | ok c =>
      cases hw : writeFile (serialize (transform r (parse c))) with
      | error e =>
          refine ⟨⟨fun h => ?_, fun ⟨c', hc', hw'⟩ => ?_⟩, fun m hm => ?_⟩
          · simp [processHtmlFile, hw] at h
          · injection hc' with hcc
            subst hcc
            rw [hw] at hw'
            exact Except.noConfusion hw'
          · right
            refine ⟨c, rfl, ?_⟩
            simp only [processHtmlFile, hw, PResult.err.injEq] at hm
            rw [hw, hm]
      | ok u =>
          cases u
          refine ⟨⟨fun _ => ⟨c, rfl, hw⟩, fun _ => ?_⟩, fun m hm => ?_⟩
          · simp [processHtmlFile, hw]
          · simp [processHtmlFile, hw] at hm

/-- C8: empty tag name strings in any of the rule lists are silently
ignored — filtering them out of the unwrap set, the delete set and the
attribute-policy tag set leaves the output unchanged on any document whose
elements all have non-empty tag names. -/
theorem empty_tag_names_ignored (r : Rules) (doc : Doc) (hwf : wfTags doc = true) :
    transform (Rules.mk (r.tags_to_remove.filter (fun s => s != ""))
        (r.tags_to_remove_with_content.filter (fun s => s != ""))
        r.clean_attrs_mode
        (r.attrs_exceptions.map (fun l => l.filter (fun s => s != "")))) doc =
      transform r doc := by
  have hmem : (("comment" ∈ r.tags_to_remove.filter (fun s => s != "")) ∨
      ("comment" ∈ r.tags_to_remove_with_content.filter (fun s => s != ""))) ↔
      ("comment" ∈ r.tags_to_remove ∨ "comment" ∈ r.tags_to_remove_with_content) := by
    simp [List.mem_filter]
  have hcp : commentPass (Rules.mk (r.tags_to_remove.filter (fun s => s != ""))
      (r.tags_to_remove_with_content.filter (fun s => s != ""))
      r.clean_attrs_mode
      (r.attrs_exceptions.map (fun l => l.filter (fun s => s != "")))) doc =
      commentPass r doc := by
    rw [commentPass, commentPass]
    simp only [hmem]
  rw [transform, transform]
  dsimp only
  rw [hcp, unwrapPass_filter_empty, deletePass_filter_empty]
  exact attrsPass_filter_empty r.clean_attrs_mode r.attrs_exceptions _
    (wfTags_deletePass _ _ (wfTags_unwrapPass _ _ (wfTags_commentPass r doc hwf)))

theorem empty_tag_names_ignored_witness :
    wfTags [Node.element "a" [("href", "x")] [],
      Node.element "div" [] [Node.text "y"]] = true ∧
    transform (Rules.mk ((["", "div"] : List String).filter (fun s => s != ""))
        ((["", "a"] : List String).filter (fun s => s != ""))
        "all_except"
        ((some ["", "a"] : Option (List String)).map (fun l => l.filter (fun s => s != ""))))
        [Node.element "a" [("href", "x")] [], Node.element "div" [] [Node.text "y"]] =
      transform (Rules.mk ["", "div"] ["", "a"] "all_except" (some ["", "a"]))
        [Node.element "a" [("href", "x")] [], Node.element "div" [] [Node.text "y"]] :=
  ⟨by simp [wfTags],
    empty_tag_names_ignored (Rules.mk ["", "div"] ["", "a"] "all_except" (some ["", "a"]))
      [Node.element "a" [("href", "x")] [], Node.element "div" [] [Node.text "y"]]
      (by simp [wfTags])⟩

/-- C9: the two engine variants are equivalent — `html_modifier`'s
`process_html_file` with `remove_with_content=False` computes the same tree
transformation as `processors/html_processor.process_html_file` with the
list as `tags_to_remove` and an empty `tags_to_remove_with_content`, and
with `remove_with_content=True` the same as the call with an empty
`tags_to_remove` and the list as `tags_to_remove_with_content` (with
`'comment'` in the list enabling comment removal in both). -/
theorem modifier_matches_processor (tags : List String) (mode : String)
    (exc : Option (List String)) (doc : Doc) :
    transformModifier tags false mode exc doc =
      transform (Rules.mk tags [] mode exc) doc ∧
    transformModifier tags true mode exc doc =
      transform (Rules.mk [] tags mode exc) doc := by
  constructor
  · rw [transformModifier, transform]
    dsimp only
    rw [commentPass]
    simp only [List.not_mem_nil, or_false, Bool.false_eq_true, if_false,
      deletePass_nil, unwrapPass]
  · rw [transformModifier, transform]
    dsimp only
    rw [commentPass]
    simp only [List.not_mem_nil, false_or, if_true, unwrapPass_nil, deletePass]

/-- C10: an unrecognized `clean_attrs_mode` string falls through every
branch of the attribute-cleaning pass, which is then a no-op, as is
`'selected'` mode with `attrs_exceptions=None`; `process_html_file` still
returns `True` — no error is reported for an unrecognized mode. -/
theorem unknown_mode_attrs_noop (mode : String) (exc : Option (List String)) (doc : Doc)
    (parse : String → Doc) (serialize : Doc → String) (content : String)
    (h1 : mode ≠ "all") (h2 : mode ≠ "selected") (h3 : mode ≠ "all_except") :
    attrsPass mode exc doc = doc ∧
    attrsPass "selected" none doc = doc ∧
    transform (Rules.mk [] [] mode exc) doc = doc ∧
    processHtmlFile (Except.ok content) (fun _ => Except.ok ()) parse serialize
      (Rules.mk [] [] mode exc) = .ok := by
  refine ⟨?_, ?_, ?_, ?_⟩
  · rw [attrsPass, if_neg h1, if_neg h2, if_neg h3]
  · rw [attrsPass, if_neg (by decide), if_pos rfl]
    rfl
  · exact transform_no_rules (Rules.mk [] [] mode exc) rfl rfl h1 h2 h3 doc
  · simp [processHtmlFile]

theorem unknown_mode_attrs_noop_witness :
    attrsPass "keep" (some ["p"]) [Node.element "p" [("class", "y")] []] =
      [Node.element "p" [("class", "y")] []] ∧
    attrsPass "selected" none [Node.element "p" [("class", "y")] []] =
      [Node.element "p" [("class", "y")] []] ∧
    transform (Rules.mk [] [] "keep" (some ["p"])) [Node.element "p" [("class", "y")] []] =
      [Node.element "p" [("class", "y")] []] ∧
    processHtmlFile (Except.ok "x") (fun _ => Except.ok ()) (fun _ => [])
      (fun _ => "") (Rules.mk [] [] "keep" (some ["p"])) = .ok :=
  unknown_mode_attrs_noop "keep" (some ["p"]) [Node.element "p" [("class", "y")] []]
    (fun _ => []) (fun _ => "") "x" (by decide) (by decide) (by decide)

end HtmlCleaner
